import Mathlib

/-!
Shallow embedding of the HOSQ 2026 projects-mapping visualization
(`main.js` and its sibling revisions). CSV cells are strings; JS string
operations are modelled over `List Char`, numbers over `ℚ`, and JS `Set`
and `Map` over lists with the same membership/overwrite semantics.
-/

set_option linter.unusedVariables false

/-- JS `a || b` on strings: the empty string is falsy. -/
def jsOrStr (s d : String) : String :=
  if s = "" then d else s

/-- JS `String.prototype.includes` over char lists: true iff `sep`
occurs as a contiguous substring of `s`. -/
def includesCL (sep : List Char) : List Char → Bool
  | [] => sep.isEmpty
  | c :: rest => sep.isPrefixOf (c :: rest) || includesCL sep rest

/-- Fuel-indexed JS `String.prototype.split` with a non-empty separator:
leftmost non-overlapping occurrences of `sep` cut the string. The fuel is
always instantiated with the string length, which suffices for a
non-empty separator. -/
def splitFuel (sep : List Char) : Nat → List Char → List (List Char)
  | 0, s => [s]
  | fuel + 1, s =>
    match s with
    | [] => [[]]
    | c :: rest =>
      if sep.isPrefixOf (c :: rest) then
        [] :: splitFuel sep fuel (List.drop sep.length (c :: rest))
      else
        match splitFuel sep fuel rest with
        | [] => [[c]]
        | p :: ps => (c :: p) :: ps

/-- JS `split` on char lists (adequate fuel supplied). -/
def splitCL (sep s : List Char) : List (List Char) :=
  splitFuel sep s.length s

/-- JS `String.prototype.trim` over char lists. -/
def trimCL (s : List Char) : List Char :=
  ((s.dropWhile Char.isWhitespace).reverse.dropWhile Char.isWhitespace).reverse

/-- JS `s.includes(pat)`. -/
def jsIncludes (s pat : String) : Bool :=
  includesCL pat.data s.data

/-- JS `s.split(sep)` for a non-empty separator. -/
def jsSplit (s sep : String) : List String :=
  (splitCL sep.data s.data).map String.mk

/-- JS `s.trim()`. -/
def jsTrim (s : String) : String :=
  ⟨trimCL s.data⟩

/-- JS `s.toLowerCase()` (ASCII case folding). -/
def jsToLower (s : String) : String :=
  ⟨s.data.map Char.toLower⟩

/-- JS string `<` comparison: lexicographic by code unit. -/
def ltCL : List Char → List Char → Bool
  | [], [] => false
  | [], _ :: _ => true
  | _ :: _, [] => false
  | a :: as, b :: bs => if a < b then true else if b < a then false else ltCL as bs

/-- JS string comparison `a < b` as used by the default `Array.sort`. -/
def jsStrLt (a b : String) : Bool :=
  ltCL a.data b.data

/-- The link key `[a, b].sort().join('|')` from `normalizeData`. -/
def jsSortJoin (a b : String) : String :=
  if jsStrLt b a then ⟨b.data ++ '|' :: a.data⟩ else ⟨a.data ++ '|' :: b.data⟩

/-- A string free of the `'|'` key separator. -/
def noBar (s : String) : Prop :=
  '|' ∉ s.data

instance (s : String) : Decidable (noBar s) := by
  unfold noBar; infer_instance

/-- A JS number as produced by `parseFloat`: NaN, a signed infinity, or a
finite value (modelled as a rational). -/
inductive JsNum where
  | nan : JsNum
  | inf (neg : Bool) : JsNum
  | num (q : ℚ) : JsNum
deriving DecidableEq, Repr

/-- Numeric value of a digit string. -/
def digitsToNat (l : List Char) : Nat :=
  l.foldl (fun acc c => acc * 10 + (c.toNat - '0'.toNat)) 0

/-- Exponent digits of a JS float literal; an empty digit run means the
exponent marker is not consumed, i.e. exponent 0. -/
def expDigitsVal (l : List Char) : Int :=
  (digitsToNat (l.takeWhile Char.isDigit) : Int)

/-- Exponent part after the `e`/`E` marker, with optional sign. -/
def parseExpSigned (l : List Char) : Int :=
  match l with
  | '+' :: t => expDigitsVal t
  | '-' :: t => - expDigitsVal t
  | t => expDigitsVal t

/-- Exponent contributed by a trailing `e`/`E` clause, if well-formed. -/
def parseExpPart (l : List Char) : Int :=
  match l with
  | 'e' :: t => parseExpSigned t
  | 'E' :: t => parseExpSigned t
  | _ => 0

/-- JS `parseFloat` on char lists: skip leading whitespace, read an
optional sign, then `Infinity` or a decimal mantissa with an optional
exponent; anything after the longest valid prefix is ignored; no valid
prefix yields NaN. -/
def parseFloatCL (s : List Char) : JsNum :=
  let s1 := s.dropWhile Char.isWhitespace
  let sign : ℚ := match s1 with
    | '-' :: _ => -1
    | _ => 1
  let s2 := match s1 with
    | '+' :: t => t
    | '-' :: t => t
    | t => t
  if ("Infinity".data).isPrefixOf s2 then
    JsNum.inf (sign < 0)
  else
    let intPart := s2.takeWhile Char.isDigit
    let s3 := s2.drop intPart.length
    let fracPart := match s3 with
      | '.' :: t => t.takeWhile Char.isDigit
      | _ => []
    let s4 := match s3 with
      | '.' :: t => t.drop fracPart.length
      | t => t
    if intPart = [] ∧ fracPart = [] then JsNum.nan
    else
      let mantissa : ℚ :=
        (digitsToNat intPart : ℚ) + (digitsToNat fracPart : ℚ) / (10 : ℚ) ^ fracPart.length
      JsNum.num (sign * mantissa * (10 : ℚ) ^ (parseExpPart s4))

/-- JS `parseFloat` on a string. -/
def jsParseFloat (s : String) : JsNum :=
  parseFloatCL s.data

/-- JS `x || 1` on a number: NaN and 0 are falsy. -/
def jsNumOr1 (x : JsNum) : JsNum :=
  match x with
  | JsNum.nan => JsNum.num 1
  | JsNum.num q => if q = 0 then JsNum.num 1 else JsNum.num q
  | x => x

/-- One CSV row of `projects_dataset.csv` as delivered by the parser:
every column is a string (blank cells are empty strings). -/
structure Row where
  projectName : String
  type : String
  fields : String
  schedule : String
  connectedProjects : String
  color : String
  scale : String
  description : String
  previousEvent : String
  photoLink : String
deriving DecidableEq, Repr

/-- Comma-separated multi-value cell: split, trim, drop empty tokens
(`row.fields ? row.fields.split(',').map(trim).filter(nonempty) : []`). -/
def parseList (s : String) : List String :=
  if s = "" then []
  else ((jsSplit s ",").map jsTrim).filter (fun t => t ≠ "")

/-- File identifier extracted from a Google Drive share link:
`parts[1].split('/')[0].split('?')[0]` after `parts = link.split('/d/')`. -/
def photoFileId (p : String) : String :=
  let parts := jsSplit p "/d/"
  let p1 := parts.getD 1 ""
  let s1 := (jsSplit p1 "/").headD ""
  (jsSplit s1 "?").headD ""

/-- Photo-link normalization from `normalizeData`: a non-blank link that
contains both `drive.google.com` and `/d/` becomes a direct thumbnail
URL embedding the extracted file identifier; everything else passes
through unchanged. -/
def normalizePhotoLink (raw : String) : String :=
  let photoLink := jsOrStr raw ""
  if photoLink ≠ "" ∧ jsTrim photoLink ≠ "" then
    if jsIncludes photoLink "drive.google.com" = true ∧ jsIncludes photoLink "/d/" = true then
      if 1 < (jsSplit photoLink "/d/").length then
        "https://drive.google.com/thumbnail?id=" ++ photoFileId photoLink ++ "&sz=w1000"
      else photoLink
    else photoLink
  else photoLink

/-- A project node as built by `normalizeData`. -/
structure Node where
  id : String
  name : String
  type : String
  fields : List String
  schedule : List String
  color : String
  scale : JsNum
  description : String
  previousEvent : String
  photoLink : String
  connectedProjects : List String
deriving DecidableEq, Repr

/-- The per-row node construction inside `normalizeData`. -/
def mkNode (row : Row) : Node :=
  { id := row.projectName
    name := row.projectName
    type := jsOrStr row.type ""
    fields := parseList row.fields
    schedule := parseList row.schedule
    color := jsOrStr row.color "#E673C8"
    scale := jsNumOr1 (jsParseFloat row.scale)
    description := jsOrStr row.description ""
    previousEvent := jsOrStr row.previousEvent ""
    photoLink := normalizePhotoLink row.photoLink
    connectedProjects := parseList row.connectedProjects }

/-- An edge pushed into `links`: `{source: node.id, target: targetNode.id}`. -/
structure Link where
  source : String
  target : String
deriving DecidableEq, Repr

/-- Lookup in the `projectMap` built by `Map.set` over all nodes in order:
the last node with the given id wins, `undefined` when absent. -/
def projectMapFind (ns : List Node) (name : String) : Option Node :=
  ns.foldl (fun acc n => if n.id = name then some n else acc) none

/-- The mutable `linkSet`/`links` pair threaded through link building. -/
structure LinkAcc where
  keys : List String
  links : List Link
deriving DecidableEq, Repr

/-- Canonical key of an emitted link. -/
def linkKey (l : Link) : String :=
  jsSortJoin l.source l.target

/-- Processing one declared connection name of `node`: resolve it in the
project map, skip self-loops and already-emitted keys, otherwise record
the key and push the link. -/
def addLink (allNodes : List Node) (node : Node) (acc : LinkAcc) (connectedName : String) :
    LinkAcc :=
  match projectMapFind allNodes connectedName with
  | none => acc
  | some targetNode =>
    if targetNode.id = node.id then acc
    else
      let key := jsSortJoin node.id targetNode.id
      if key ∈ acc.keys then acc
      else ⟨acc.keys ++ [key], acc.links ++ [⟨node.id, targetNode.id⟩]⟩

/-- The nested `forEach` loops of `normalizeData` that build `links`. -/
def buildLinks (ns : List Node) : List Link :=
  (ns.foldl (fun (acc : LinkAcc) (node : Node) =>
    node.connectedProjects.foldl (addLink ns node) acc) ⟨[], []⟩).links

/-- The `{nodes, links}` value returned by `normalizeData`. -/
structure GraphData where
  nodes : List Node
  links : List Link
deriving DecidableEq, Repr

/-- `normalizeData`: map rows to nodes, then derive the deduplicated
undirected edge list from declared connections. -/
def normalizeData (rows : List Row) : GraphData :=
  let ns := rows.map mkNode
  ⟨ns, buildLinks ns⟩

/-- The global filter state: `selectedTypes`, `selectedFields` (JS sets,
modelled as lists with set membership) and `searchQuery`. -/
structure FilterState where
  selectedTypes : List String
  selectedFields : List String
  searchQuery : String
deriving DecidableEq, Repr

/-- The per-node opacity computed inside the `applyFilters` of `main.js`
and the part_001/part_002 revisions: type filter, fields filter and
search query are independent early-return checks, so the search rule is
consulted whenever the earlier rules pass (dim value 0.15 as in
part_002; main.js and part_001 use 0.2). -/
def filterOpacity (st : FilterState) (d : Node) : ℚ :=
  if 0 < st.selectedTypes.length ∧ d.type ∉ st.selectedTypes then 0.15
  else if 0 < st.selectedFields.length ∧ ¬ ∃ f ∈ d.fields, f ∈ st.selectedFields then 0.15
  else if st.searchQuery ≠ "" ∧
      ¬ jsIncludes (jsToLower d.name) (jsToLower st.searchQuery) = true then 0.15
  else 1

/-- The per-node opacity computed inside the `applyFilters` of the
part_000 revision: an else-if chain whose fields branch is terminal —
once `selectedFields` is non-empty the node is dimmed iff no field
matches and the search rule is never consulted. -/
def filterOpacityP0 (st : FilterState) (d : Node) : ℚ :=
  if 0 < st.selectedTypes.length ∧ d.type ∉ st.selectedTypes then 0.15
  else if 0 < st.selectedFields.length then
    (if ¬ ∃ f ∈ d.fields, f ∈ st.selectedFields then 0.15 else 1)
  else if st.searchQuery ≠ "" ∧
      ¬ jsIncludes (jsToLower d.name) (jsToLower st.searchQuery) = true then 0.15
  else 1

/-- The node-opacity map assembled by `applyFilters` (main.js variant). -/
def applyFilters (st : FilterState) (ns : List Node) : List (String × ℚ) :=
  ns.map (fun d => (d.id, filterOpacity st d))

/-- The node-opacity map assembled by the part_000 `applyFilters`. -/
def applyFiltersP0 (st : FilterState) (ns : List Node) : List (String × ℚ) :=
  ns.map (fun d => (d.id, filterOpacityP0 st d))

/-- `nodeOpacityMap.get(id) || 1`: a missing entry (and a zero value,
which never occurs) defaults to 1. -/
def opLookup (m : List (String × ℚ)) (k : String) : ℚ :=
  match m.find? (fun p => p.1 == k) with
  | none => 1
  | some p => if p.2 = 0 then 1 else p.2

/-- The per-edge opacity assembled by the part_000 `applyFilters` (the
only revision that dims edges): the minimum of the two endpoint
opacities of its node map. -/
def applyFiltersLinks (st : FilterState) (ns : List Node) (ls : List Link) : List ℚ :=
  ls.map (fun l =>
    min (opLookup (applyFiltersP0 st ns) l.source) (opLookup (applyFiltersP0 st ns) l.target))

/-- JS `Set.prototype.add`: append if not already a member. -/
def jsSetAdd (s : List String) (x : String) : List String :=
  if x ∈ s then s else s ++ [x]

/-- JS `Set.prototype.delete`: remove the element. -/
def jsSetDelete (s : List String) (x : String) : List String :=
  s.filter (fun y => y != x)

/-- `setFieldFilterState`: force a field filter to a given active state
(the UI tag update carries no filter semantics). -/
def setFieldFilterState (field : String) (shouldBeActive : Bool) (sf : List String) :
    List String :=
  if shouldBeActive then jsSetAdd sf field else jsSetDelete sf field

/-- `toggleFieldFilter`: flip the membership of `field` in `selectedFields`. -/
def toggleFieldFilter (field : String) (sf : List String) : List String :=
  setFieldFilterState field (decide (field ∉ sf)) sf

/-- The fixed season enumeration `SCHEDULE_ORDER`. -/
def SCHEDULE_ORDER : List String := ["Winter", "Spring", "Summer", "Fall"]

/-- A d3 point scale as configured by `createScheduleScale`: a domain of
labels, a numeric range and outer padding. -/
structure PointScale where
  domain : List String
  rangeLo : ℚ
  rangeHi : ℚ
  padding : ℚ
deriving DecidableEq, Repr

/-- `createScheduleScale(width)`: point scale over the four seasons with
range `[width * 0.15, width * 0.85]` and padding `0.5`. -/
def createScheduleScale (width : ℚ) : PointScale :=
  { domain := SCHEDULE_ORDER
    rangeLo := width * 0.15
    rangeHi := width * 0.85
    padding := 0.5 }

/-- Walk the domain assigning evenly stepped positions; `none` models the
`undefined` a d3 point scale returns off its domain. -/
def scaleLookup (lo step pad : ℚ) : List String → ℚ → String → Option ℚ
  | [], _, _ => none
  | dh :: dt, i, x =>
    if dh = x then some (lo + step * (pad + i)) else scaleLookup lo step pad dt (i + 1) x

/-- Apply a point scale: `step = span / max(1, n - 1 + 2 * padding)` and
the i-th domain label sits at `lo + step * (padding + i)`. -/
def scaleApply (sc : PointScale) (x : String) : Option ℚ :=
  let n : ℚ := sc.domain.length
  let step := (sc.rangeHi - sc.rangeLo) / max 1 (n - 1 + 2 * sc.padding)
  scaleLookup sc.rangeLo step sc.padding sc.domain 0 x

/-- `getNodeXPosition`: the first schedule value looked up in the scale,
with `scheduleScale.range()[1] / 2` as the default for an empty schedule
and the `||` fallback for a falsy lookup. -/
def getNodeXPosition (node : Node) (scheduleScale : PointScale) : ℚ :=
  if node.schedule.length = 0 then scheduleScale.rangeHi / 2
  else
    let firstSchedule := node.schedule.headD ""
    match scaleApply scheduleScale firstSchedule with
    | none => scheduleScale.rangeHi / 2
    | some v => if v = 0 then scheduleScale.rangeHi / 2 else v

/-- The interaction-controller state touched by the hover handler:
selection, popup, and the opacity/highlight attributes it writes. -/
structure InteractState where
  clickedNode : Option String
  hoveredNode : Option String
  popupNode : Option String
  nodeOpacityMap : List (String × ℚ)
  linkHighlighted : List Bool
  linkOpacity : List ℚ
deriving DecidableEq, Repr

/-- The `connectedIds` set of `handleNodeHover`: the node itself plus
every neighbor across the edge list. -/
def connectedIdsOf (ls : List Link) (id0 : String) : List String :=
  ls.foldl (fun acc l =>
    let acc1 := if l.source = id0 then acc ++ [l.target] else acc
    if l.target = id0 then acc1 ++ [l.source] else acc1) [id0]

/-- The body of `handleNodeHover` once the clicked-node guard has passed:
record the hovered node, recompute node opacities (self, neighbors and
same-type nodes stay opaque), highlight touching edges, and show the
popup. -/
def hoverCore (ns : List Node) (ls : List Link) (d : Node) (st : InteractState) :
    InteractState :=
  let connectedIds := connectedIdsOf ls d.id
  let opMap := ns.map (fun n =>
    (n.id, if n.id = d.id then (1 : ℚ)
      else if n.id ∈ connectedIds then 1
      else if n.type = d.type then 1
      else 0.15))
  { clickedNode := st.clickedNode
    hoveredNode := some d.id
    popupNode :=
      if st.clickedNode = none ∨ st.clickedNode = some d.id then some d.id else st.popupNode
    nodeOpacityMap := opMap
    linkHighlighted := ls.map (fun l => decide (l.source = d.id ∨ l.target = d.id))
    linkOpacity := ls.map (fun l =>
      if l.source = d.id ∨ l.target = d.id then 1
      else min (opLookup opMap l.source) (opLookup opMap l.target)) }

/-- `handleNodeHover`: return without any effect when a click is active
for a different node, otherwise run the hover body. -/
def handleNodeHover (ns : List Node) (ls : List Link) (d : Node) (st : InteractState) :
    InteractState :=
  match st.clickedNode with
  | some m => if m ≠ d.id then st else hoverCore ns ls d st
  | none => hoverCore ns ls d st

/-- `loadData`: on a successful fetch normalize the rows; on a rejected
fetch log the error and return the empty node/edge set instead of
rethrowing. The returned log list records the `console.error` calls. -/
def loadData (fetchResult : Except String (List Row)) : GraphData × List String :=
  match fetchResult with
  | Except.ok rows => (normalizeData rows, [])
  | Except.error e => (⟨[], []⟩, ["Error loading CSV: " ++ e])

/-- Outcome of `init`: either it aborts before building the
visualization or it proceeds with the loaded data. -/
inductive InitOutcome where
  | aborted : InitOutcome
  | initialized (data : GraphData) : InitOutcome
deriving DecidableEq, Repr

/-- `init`: load the data and short-circuit with a logged message when no
nodes were loaded. -/
def init (fetchResult : Except String (List Row)) : InitOutcome × List String :=
  let r := loadData fetchResult
  if r.1.nodes.length = 0 then (InitOutcome.aborted, r.2 ++ ["No data loaded"])
  else (InitOutcome.initialized r.1, r.2)

/-- The unordered-pair equality of two links. -/
def samePair (l1 l2 : Link) : Prop :=
  (l1.source = l2.source ∧ l1.target = l2.target) ∨
  (l1.source = l2.target ∧ l1.target = l2.source)

instance (l1 l2 : Link) : Decidable (samePair l1 l2) := by
  unfold samePair; infer_instance

/-- Boolean test that a link joins the unordered pair `{a, b}`. -/
def samePairB (l : Link) (a b : String) : Bool :=
  decide (samePair l ⟨a, b⟩)

/-- A row with every cell blank, used as the base of concrete datasets. -/
def emptyRow : Row := ⟨"", "", "", "", "", "", "", "", "", ""⟩

/-- Row A of the worked example: type Art, fields paint and sculpture,
declares a connection to B. -/
def exRowA : Row :=
  { emptyRow with
    projectName := "A"
    type := "Art"
    fields := "paint,sculpture"
    connectedProjects := "B" }

/-- Row B of the worked example: type Music, field paint, declares
connections to A and C. -/
def exRowB : Row :=
  { emptyRow with
    projectName := "B"
    type := "Music"
    fields := "paint"
    connectedProjects := "A,C" }

/-- Row C of the worked example: type Music, field dance, no declared
connections. -/
def exRowC : Row :=
  { emptyRow with projectName := "C", type := "Music", fields := "dance" }

/-- The three-row example dataset. -/
def exRows : List Row := [exRowA, exRowB, exRowC]

/-- The example filter state: only the field `paint` selected. -/
def exFilter : FilterState := ⟨[], ["paint"], ""⟩

/-- Collision dataset: ids containing the key separator `'|'`. -/
def cexRows : List Row :=
  [ { emptyRow with projectName := "a|b", connectedProjects := "c" },
    { emptyRow with projectName := "c" },
    { emptyRow with projectName := "a", connectedProjects := "b|c" },
    { emptyRow with projectName := "b|c" } ]

/-- First row of the two-row witness dataset: declares a connection to B. -/
def wRowA : Row := { emptyRow with projectName := "A", connectedProjects := "B" }

/-- Second row of the two-row witness dataset. -/
def wRowB : Row := { emptyRow with projectName := "B" }

/-- Two-row dataset with a single declared connection, used to witness
the amended edge-list claim. -/
def wRows : List Row := [wRowA, wRowB]

/-- A minimal node with the given id and type. -/
def plainNode (id ty : String) : Node :=
  { id := id, name := id, type := ty, fields := [], schedule := [], color := "",
    scale := JsNum.num 1, description := "", previousEvent := "", photoLink := "",
    connectedProjects := [] }

/-- A node whose schedule is empty. -/
def emptyScheduleNode : Node := plainNode "P" ""

/-- A node whose first schedule entry is not one of the four seasons. -/
def autumnNode : Node := { plainNode "Q" "" with schedule := ["Autumn"] }

/-- A concrete interaction state with a click active for node A. -/
def clickedAState : InteractState :=
  { clickedNode := some "A", hoveredNode := none, popupNode := some "A",
    nodeOpacityMap := [], linkHighlighted := [], linkOpacity := [] }

/-- The Google Drive share link of the worked photo example. -/
def exPhotoUrl : String := "https://drive.google.com/file/d/XYZ123/view?usp=sharing"

/-- The well-formedness invariant of the link accumulator: the key set
lists exactly the canonical keys of the emitted links, keys never
repeat, and every emitted link is loop-free with endpoints that are ids
of dataset nodes. -/
def accWf (ns : List Node) (acc : LinkAcc) : Prop :=
  acc.keys = acc.links.map linkKey ∧
  acc.keys.Nodup ∧
  ∀ l ∈ acc.links, l.source ≠ l.target ∧
    (∃ n ∈ ns, n.id = l.source) ∧ (∃ n ∈ ns, n.id = l.target)

/-- The spec-side priority chain for node visibility, written from the
specification text: dimmed by the type rule, else by the fields rule,
else by the search rule, otherwise fully visible. -/
def specDimmed (st : FilterState) (d : Node) : Prop :=
  (st.selectedTypes ≠ [] ∧ d.type ∉ st.selectedTypes) ∨
  ((st.selectedTypes = [] ∨ d.type ∈ st.selectedTypes) ∧
    (st.selectedFields ≠ [] ∧ ∀ f ∈ d.fields, f ∉ st.selectedFields)) ∨
  ((st.selectedTypes = [] ∨ d.type ∈ st.selectedTypes) ∧
    (st.selectedFields = [] ∨ ∃ f ∈ d.fields, f ∈ st.selectedFields) ∧
    (st.searchQuery ≠ "" ∧ jsIncludes (jsToLower d.name) (jsToLower st.searchQuery) = false))

instance (st : FilterState) (d : Node) : Decidable (specDimmed st d) := by
  unfold specDimmed; infer_instance

/-- The priority chain actually implemented by the part_000
`applyFilters`: as `specDimmed`, except that the search rule applies
only when `selectedFields` is empty (the fields branch is terminal). -/
def specDimmedP0 (st : FilterState) (d : Node) : Prop :=
  (st.selectedTypes ≠ [] ∧ d.type ∉ st.selectedTypes) ∨
  ((st.selectedTypes = [] ∨ d.type ∈ st.selectedTypes) ∧
    (st.selectedFields ≠ [] ∧ ∀ f ∈ d.fields, f ∉ st.selectedFields)) ∨
  ((st.selectedTypes = [] ∨ d.type ∈ st.selectedTypes) ∧
    st.selectedFields = [] ∧
    (st.searchQuery ≠ "" ∧ jsIncludes (jsToLower d.name) (jsToLower st.searchQuery) = false))

instance (st : FilterState) (d : Node) : Decidable (specDimmedP0 st d) := by
  unfold specDimmedP0; infer_instance

/-- Node used by the C3 counterexample: name "N", single field "x". -/
def c3Node : Node := { plainNode "N" "" with fields := ["x"] }

/-- Filter state of the C3 counterexample: no type filter, the field
"x" selected (and matched by the node) and a search query that does not
occur in the node's name. -/
def c3Filter : FilterState := ⟨[], ["x"], "zzz"⟩

/-- A row whose scale cell does not parse as a number. -/
def badScaleRow : Row := { emptyRow with scale := "abc" }

/-- A JS split never produces an empty list of parts. -/
theorem splitFuel_ne_nil (sep : List Char) (n : Nat) (s : List Char) :
    splitFuel sep n s ≠ [] := by
  cases n with
  | zero => simp [splitFuel]
  | succ m =>
    cases s with
    | nil => simp [splitFuel]
    | cons c rest =>
      unfold splitFuel
      by_cases h : sep.isPrefixOf (c :: rest) = true
      · simp [h]
      · simp only [h]
        cases hrec : splitFuel sep m rest <;> simp

/-- If the separator occurs in the string, a JS split with enough fuel
produces at least two parts. -/
theorem includesCL_splitFuel_length (sep : List Char) :
    ∀ (n : Nat) (s : List Char), s.length ≤ n → sep ≠ [] →
      includesCL sep s = true → 1 < (splitFuel sep n s).length := by
  intro n
  induction n with
  | zero =>
    intro s hlen hsep hinc
    have hs : s = [] := List.length_eq_zero.mp (Nat.le_zero.mp hlen)
    subst hs
    simp [includesCL, List.isEmpty_iff] at hinc
    exact absurd hinc hsep
  | succ m ih =>
    intro s hlen hsep hinc
    cases s with
    | nil =>
      simp [includesCL, List.isEmpty_iff] at hinc
      exact absurd hinc hsep
    | cons c rest =>
      unfold splitFuel
      by_cases h : sep.isPrefixOf (c :: rest) = true
      · simp only [h, if_true, List.length_cons]
        have := splitFuel_ne_nil sep m (List.drop sep.length (c :: rest))
        have hpos : 0 < (splitFuel sep m (List.drop sep.length (c :: rest))).length :=
          List.length_pos.mpr this
        omega
      · have hinc' : includesCL sep rest = true := by
          simp only [includesCL, h, Bool.false_or] at hinc
          exact hinc
        have hlen' : rest.length ≤ m := by
          simp only [List.length_cons] at hlen
          omega
        have := ih rest hlen' hsep hinc'
        simp only [h, if_false]
        cases hrec : splitFuel sep m rest with
        | nil => exact absurd hrec (splitFuel_ne_nil sep m rest)
        | cons p ps =>
          rw [hrec] at this
          simpa using this

/-- An occurring separator decomposes the string around it. -/
theorem includesCL_exists (sep : List Char) :
    ∀ (s : List Char), includesCL sep s = true → ∃ pre post, s = pre ++ (sep ++ post) := by
  intro s
  induction s with
  | nil =>
    intro h
    simp [includesCL, List.isEmpty_iff] at h
    exact ⟨[], [], by simp [h]⟩
  | cons c rest ih =>
    intro h
    simp only [includesCL, Bool.or_eq_true] at h
    rcases h with h | h
    · rcases List.isPrefixOf_iff_prefix.mp h with ⟨post, hpost⟩
      exact ⟨[], post, by simp [hpost.symm]⟩
    · rcases ih h with ⟨pre, post, hp⟩
      exact ⟨c :: pre, post, by simp [hp]⟩

/-- A non-discarded element survives `dropWhile`. -/
theorem mem_dropWhile_of_not {p : Char → Bool} {c : Char} :
    ∀ {l : List Char}, c ∈ l → p c = false → c ∈ l.dropWhile p := by
  intro l
  induction l with
  | nil => intro h; exact absurd h (List.not_mem_nil c)
  | cons a t ih =>
    intro hmem hpc
    by_cases ha : p a = true
    · rw [List.dropWhile_cons_of_pos ha]
      rcases List.mem_cons.mp hmem with rfl | ht
      · exact absurd ha (by simp [hpc])
      · exact ih ht hpc
    · rw [List.dropWhile_cons_of_neg ha]
      exact hmem

/-- A string containing a non-whitespace character does not trim to
nothing. -/
theorem trimCL_ne_nil {s : List Char} {c : Char} (hc : c ∈ s)
    (hw : c.isWhitespace = false) : trimCL s ≠ [] := by
  unfold trimCL
  intro h
  have h1 : c ∈ s.dropWhile Char.isWhitespace := mem_dropWhile_of_not hc hw
  have h2 : c ∈ (s.dropWhile Char.isWhitespace).reverse := List.mem_reverse.mpr h1
  have h3 : c ∈ (s.dropWhile Char.isWhitespace).reverse.dropWhile Char.isWhitespace :=
    mem_dropWhile_of_not h2 hw
  rw [List.reverse_eq_nil_iff] at h
  rw [h] at h3
  exact absurd h3 (List.not_mem_nil c)

/-- The JS string order is asymmetric. -/
theorem ltCL_asymm : ∀ {a b : List Char}, ltCL a b = true → ltCL b a = false := by
  intro a
  induction a with
  | nil =>
    intro b h
    cases b with
    | nil => simp [ltCL] at h
    | cons x xs => simp [ltCL]
  | cons x xs ih =>
    intro b h
    cases b with
    | nil => simp [ltCL] at h
    | cons y ys =>
      simp only [ltCL] at h ⊢
      rcases lt_trichotomy x y with hxy | hxy | hxy
      · simp [hxy, not_lt_of_lt hxy]
      · subst hxy
        simp only [lt_irrefl, if_false] at h ⊢
        exact ih h
      · simp [hxy, not_lt_of_lt hxy] at h

/-- Two strings neither of which is below the other are equal. -/
theorem ltCL_eq_of_not : ∀ {a b : List Char}, ltCL a b = false → ltCL b a = false → a = b := by
  intro a
  induction a with
  | nil =>
    intro b h1 h2
    cases b with
    | nil => rfl
    | cons y ys => simp [ltCL] at h1
  | cons x xs ih =>
    intro b h1 h2
    cases b with
    | nil => simp [ltCL] at h2
    | cons y ys =>
      simp only [ltCL] at h1 h2
      rcases lt_trichotomy x y with hxy | hxy | hxy
      · simp [hxy] at h1
      · subst hxy
        simp only [lt_irrefl, if_false] at h1 h2
        rw [ih h1 h2]
      · simp [hxy] at h2

/-- The canonical link key does not depend on the edge direction. -/
theorem jsSortJoin_comm (a b : String) : jsSortJoin a b = jsSortJoin b a := by
  unfold jsSortJoin jsStrLt
  by_cases h1 : ltCL a.data b.data = true
  · have h2 : ltCL b.data a.data = false := ltCL_asymm h1
    simp [h1, h2]
  · by_cases h2 : ltCL b.data a.data = true
    · simp [h1, h2]
    · have h1' : ltCL a.data b.data = false := by simpa using h1
      have h2' : ltCL b.data a.data = false := by simpa using h2
      have : a.data = b.data := ltCL_eq_of_not h1' h2'
      have hab : a = b := String.ext this
      subst hab
      rfl

/-- Splitting a joined key at its separator is unambiguous when neither
component contains the separator. -/
theorem appendBarInj :
    ∀ {x1 : List Char} {y1 : List Char} {x2 : List Char} {y2 : List Char},
      '|' ∉ x1 → '|' ∉ x2 → x1 ++ '|' :: y1 = x2 ++ '|' :: y2 → x1 = x2 ∧ y1 = y2 := by
  intro x1
  induction x1 with
  | nil =>
    intro y1 x2 y2 h1 h2 heq
    cases x2 with
    | nil => simp_all
    | cons z zs =>
      exfalso
      simp only [List.nil_append, List.cons_append, List.cons.injEq] at heq
      exact h2 (heq.1 ▸ List.mem_cons_self z zs)
  | cons c cs ih =>
    intro y1 x2 y2 h1 h2 heq
    cases x2 with
    | nil =>
      exfalso
      simp only [List.nil_append, List.cons_append, List.cons.injEq] at heq
      exact h1 (heq.1.symm ▸ List.mem_cons_self c cs)
    | cons z zs =>
      simp only [List.cons_append, List.cons.injEq] at heq
      have h1' : '|' ∉ cs := fun hm => h1 (List.mem_cons_of_mem c hm)
      have h2' : '|' ∉ zs := fun hm => h2 (List.mem_cons_of_mem z hm)
      rcases ih h1' h2' heq.2 with ⟨hx, hy⟩
      exact ⟨by rw [heq.1, hx], hy⟩

/-- Equal canonical keys of separator-free ids come from the same
unordered pair. -/
theorem jsSortJoin_inj {a b c d : String} (ha : noBar a) (hb : noBar b) (hc : noBar c)
    (hd : noBar d) (h : jsSortJoin a b = jsSortJoin c d) :
    (a = c ∧ b = d) ∨ (a = d ∧ b = c) := by
  unfold jsSortJoin at h
  unfold noBar at ha hb hc hd
  by_cases h1 : jsStrLt b a = true <;> by_cases h2 : jsStrLt d c = true <;>
    simp only [h1, h2, if_true, if_false, Bool.not_eq_true] at h
  · have hdata : b.data ++ '|' :: a.data = d.data ++ '|' :: c.data := by
      have := congrArg String.data h
      simpa using this
    rcases appendBarInj hb hd hdata with ⟨hbd, hac⟩
    exact Or.inl ⟨String.ext hac, String.ext hbd⟩
  · have hdata : b.data ++ '|' :: a.data = c.data ++ '|' :: d.data := by
      have := congrArg String.data h
      simpa using this
    rcases appendBarInj hb hc hdata with ⟨hbc, had⟩
    exact Or.inr ⟨String.ext had, String.ext hbc⟩
  · have hdata : a.data ++ '|' :: b.data = d.data ++ '|' :: c.data := by
      have := congrArg String.data h
      simpa using this
    rcases appendBarInj ha hd hdata with ⟨had, hbc⟩
    exact Or.inr ⟨String.ext had, String.ext hbc⟩
  · have hdata : a.data ++ '|' :: b.data = c.data ++ '|' :: d.data := by
      have := congrArg String.data h
      simpa using this
    rcases appendBarInj ha hc hdata with ⟨hac, hbd⟩
    exact Or.inl ⟨String.ext hac, String.ext hbd⟩

/-- Links over the same unordered pair share their canonical key. -/
theorem samePair_linkKey {l1 l2 : Link} (h : samePair l1 l2) : linkKey l1 = linkKey l2 := by
  unfold linkKey
  rcases h with ⟨hs, ht⟩ | ⟨hs, ht⟩
  · rw [hs, ht]
  · rw [hs, ht, jsSortJoin_comm]

/-- A successful project-map lookup returns a node of the dataset whose
id is the looked-up name. -/
theorem projectMapFind_mem {ns : List Node} {c : String} {t : Node} :
    projectMapFind ns c = some t → t ∈ ns ∧ t.id = c := by
  unfold projectMapFind
  suffices h : ∀ (l : List Node) (acc : Option Node),
      l.foldl (fun acc n => if n.id = c then some n else acc) acc = some t →
      (t ∈ l ∧ t.id = c) ∨ acc = some t by
    intro hfind
    rcases h ns none hfind with hgood | hbad
    · exact hgood
    · exact absurd hbad (by simp)
  intro l
  induction l with
  | nil => intro acc h; exact Or.inr h
  | cons n rest ih =>
    intro acc h
    simp only [List.foldl_cons] at h
    rcases ih _ h with ⟨hm, hid⟩ | hacc
    · exact Or.inl ⟨List.mem_cons_of_mem n hm, hid⟩
    · by_cases hn : n.id = c
      · rw [if_pos hn] at hacc
        have : t = n := by injection hacc.symm
        exact Or.inl ⟨this ▸ List.mem_cons_self n rest, this ▸ hn⟩
      · rw [if_neg hn] at hacc
        exact Or.inr hacc

/-- A property preserved by each step of a fold holds of its result. -/
theorem foldl_preserve {α β : Type} {P : β → Prop} (f : β → α → β) :
    ∀ (L : List α) (acc : β), (∀ acc a, a ∈ L → P acc → P (f acc a)) → P acc →
      P (L.foldl f acc) := by
  intro L
  induction L with
  | nil => intro acc _ h; exact h
  | cons a rest ih =>
    intro acc hstep h
    simp only [List.foldl_cons]
    exact ih (f acc a) (fun acc' a' ha' h' => hstep acc' a' (List.mem_cons_of_mem a ha') h')
      (hstep acc a (List.mem_cons_self a rest) h)

/-- Processing one declared connection preserves the accumulator
invariant. -/
theorem addLink_wf {ns : List Node} {node : Node} {acc : LinkAcc} {cname : String}
    (hnode : node ∈ ns) (h : accWf ns acc) : accWf ns (addLink ns node acc cname) := by
  unfold addLink
  cases hfind : projectMapFind ns cname with
  | none => exact h
  | some t =>
    dsimp only
    by_cases hself : t.id = node.id
    · rw [if_pos hself]; exact h
    · rw [if_neg hself]
      by_cases hkey : jsSortJoin node.id t.id ∈ acc.keys
      · rw [if_pos hkey]; exact h
      · rw [if_neg hkey]
        rcases h with ⟨hkeys, hnodup, hlinks⟩
        refine ⟨?_, ?_, ?_⟩
        · simp only [List.map_append, List.map_cons, List.map_nil]
          rw [hkeys]
          rfl
        · rw [List.nodup_append]
          refine ⟨hnodup, List.nodup_singleton _, ?_⟩
          intro x hx hx1
          simp only [List.mem_singleton] at hx1
          exact hkey (hx1 ▸ hx)
        · intro l hl
          rcases List.mem_append.mp hl with hl | hl
          · exact hlinks l hl
          · simp only [List.mem_singleton] at hl
            subst hl
            refine ⟨fun hst => hself (hst.symm), ⟨node, hnode, rfl⟩, ?_⟩
            rcases projectMapFind_mem hfind with ⟨htm, _⟩
            exact ⟨t, htm, rfl⟩

/-- The key set only grows while connections are processed. -/
theorem addLink_keys_mono {ns : List Node} {node : Node} {acc : LinkAcc} {cname : String}
    {k : String} (h : k ∈ acc.keys) : k ∈ (addLink ns node acc cname).keys := by
  unfold addLink
  cases hfind : projectMapFind ns cname with
  | none => exact h
  | some t =>
    dsimp only
    by_cases hself : t.id = node.id
    · rw [if_pos hself]; exact h
    · rw [if_neg hself]
      by_cases hkey : jsSortJoin node.id t.id ∈ acc.keys
      · rw [if_pos hkey]; exact h
      · rw [if_neg hkey]
        exact List.mem_append.mpr (Or.inl h)

/-- Processing a declared connection that resolves to a distinct node
records its canonical key. -/
theorem addLink_key_mem {ns : List Node} {node : Node} {acc : LinkAcc} {cname : String}
    {B : Node} (hfind : projectMapFind ns cname = some B) (hne : B.id ≠ node.id) :
    jsSortJoin node.id B.id ∈ (addLink ns node acc cname).keys := by
  unfold addLink
  rw [hfind]
  dsimp only
  rw [if_neg hne]
  by_cases hkey : jsSortJoin node.id B.id ∈ acc.keys
  · rw [if_pos hkey]; exact hkey
  · rw [if_neg hkey]
    exact List.mem_append.mpr (Or.inr (List.mem_singleton.mpr rfl))

/-- After the inner fold over a node's declared connections, the key of
any connection that resolves to a distinct node is recorded. -/
theorem inner_fold_key_mem {ns : List Node} {node : Node} {cname : String} {B : Node}
    (hfind : projectMapFind ns cname = some B) (hne : B.id ≠ node.id) :
    ∀ (L : List String) (acc : LinkAcc), cname ∈ L →
      jsSortJoin node.id B.id ∈ (L.foldl (addLink ns node) acc).keys := by
  intro L
  induction L with
  | nil => intro acc h; exact absurd h (List.not_mem_nil cname)
  | cons c rest ih =>
    intro acc hmem
    simp only [List.foldl_cons]
    rcases List.mem_cons.mp hmem with rfl | hrest
    · have h1 : jsSortJoin node.id B.id ∈ (addLink ns node acc cname).keys :=
        addLink_key_mem hfind hne
      exact foldl_preserve (P := fun acc => jsSortJoin node.id B.id ∈ acc.keys)
        (addLink ns node) rest (addLink ns node acc cname)
        (fun acc' a' _ h' => addLink_keys_mono h') h1
    · exact ih (addLink ns node acc c) hrest

/-- After the outer fold over all nodes, every declared connection that
resolves to a distinct node has its key recorded. -/
theorem outer_fold_key_mem {ns : List Node} {A : Node} {cname : String} {B : Node}
    (hfind : projectMapFind ns cname = some B) (hne : B.id ≠ A.id)
    (hc : cname ∈ A.connectedProjects) :
    ∀ (M : List Node) (acc : LinkAcc), A ∈ M →
      jsSortJoin A.id B.id ∈
        (M.foldl (fun (acc : LinkAcc) (node : Node) =>
          node.connectedProjects.foldl (addLink ns node) acc) acc).keys := by
  intro M
  induction M with
  | nil => intro acc h; exact absurd h (List.not_mem_nil A)
  | cons n rest ih =>
    intro acc hmem
    simp only [List.foldl_cons]
    rcases List.mem_cons.mp hmem with rfl | hrest
    · have h1 : jsSortJoin A.id B.id ∈
          (A.connectedProjects.foldl (addLink ns A) acc).keys :=
        inner_fold_key_mem hfind hne A.connectedProjects acc hc
      exact foldl_preserve (P := fun acc => jsSortJoin A.id B.id ∈ acc.keys) _ rest _
        (fun acc' n' _ h' =>
          foldl_preserve (P := fun acc => jsSortJoin A.id B.id ∈ acc.keys)
            (addLink ns n') n'.connectedProjects acc'
            (fun acc'' a'' _ h'' => addLink_keys_mono h'') h')
        h1
    · exact ih _ hrest

/-- The final accumulator of `buildLinks` satisfies the invariant. -/
theorem buildLinks_wf (ns : List Node) :
    accWf ns (ns.foldl (fun (acc : LinkAcc) (node : Node) =>
      node.connectedProjects.foldl (addLink ns node) acc) ⟨[], []⟩) := by
  refine foldl_preserve (P := accWf ns) _ ns ⟨[], []⟩ ?_ ?_
  · intro acc n hn h
    exact foldl_preserve (P := accWf ns) (addLink ns n) n.connectedProjects acc
      (fun acc' a' _ h' => addLink_wf hn h') h
  · exact ⟨rfl, List.nodup_nil, fun l hl => absurd hl (List.not_mem_nil l)⟩

/-- A predicate that pins the image under an injective-on-keys map holds
at most once in a list with distinct key images. -/
theorem countP_le_one_of_key {L : List Link} {p : Link → Bool} {k : String}
    (hkey : ∀ x ∈ L, p x = true → linkKey x = k) (hnd : (L.map linkKey).Nodup) :
    L.countP p ≤ 1 := by
  induction L with
  | nil => simp [List.countP_nil]
  | cons h t ih =>
    simp only [List.map_cons, List.nodup_cons] at hnd
    rw [List.countP_cons]
    by_cases hp : p h = true
    · have hzero : t.countP p = 0 := by
        rw [List.countP_eq_zero]
        intro a ha hpa
        have h1 : linkKey a = k := hkey a (List.mem_cons_of_mem h ha) hpa
        have h2 : linkKey h = k := hkey h (List.mem_cons_self h t) hp
        have hmem : linkKey a ∈ t.map linkKey := List.mem_map_of_mem linkKey ha
        rw [h1, ← h2] at hmem
        exact hnd.1 hmem
      simp [hp, hzero]
    · have hle : t.countP p ≤ 1 :=
        ih (fun x hx hpx => hkey x (List.mem_cons_of_mem h hx) hpx) hnd.2
      rw [if_neg hp]
      omega

/-- C1 (counterexample): with ids containing the key separator, the
dataset in which "a|b" declares "c" and "a" declares "b|c" produces no
edge at all for the declared, resolved, non-self connection from "a" to
"b|c" (its joined key collides with the key of the edge a|b—c), so a
declared connection does not always yield exactly one edge. -/
theorem C1_normalizeData_counterexample :
    (∃ A ∈ (normalizeData cexRows).nodes, A.id = "a" ∧ "b|c" ∈ A.connectedProjects) ∧
    (projectMapFind (normalizeData cexRows).nodes "b|c").map Node.id = some "b|c" ∧
    (normalizeData cexRows).links.countP (fun l => samePairB l "a" "b|c") = 0 := by
  refine ⟨by decide, by decide, by decide⟩

/-- C1 (amended): for every input dataset the edge list of
`normalizeData` contains no self-loops and no two edges over the same
unordered pair of endpoint ids; and provided no node id contains the
key-separator character `'|'`, every connection declared from either
endpoint (or both) that resolves to a distinct existing node yields
exactly one edge, canonicalized by the sorted pair of ids. -/
theorem normalizeData_edge_dedup (rows : List Row) :
    (∀ l ∈ (normalizeData rows).links, l.source ≠ l.target) ∧
    List.Pairwise (fun l1 l2 => ¬ samePair l1 l2) (normalizeData rows).links ∧
    ((∀ n ∈ (normalizeData rows).nodes, noBar n.id) →
      ∀ A ∈ (normalizeData rows).nodes, ∀ cname ∈ A.connectedProjects, ∀ B : Node,
        projectMapFind (normalizeData rows).nodes cname = some B → B.id ≠ A.id →
        (normalizeData rows).links.countP (fun l => samePairB l A.id B.id) = 1) := by
  have hwf := buildLinks_wf (rows.map mkNode)
  rcases hwf with ⟨hkeys, hnodup, hprop⟩
  have hlinks : (normalizeData rows).links =
      ((rows.map mkNode).foldl (fun (acc : LinkAcc) (node : Node) =>
        node.connectedProjects.foldl (addLink (rows.map mkNode) node) acc) ⟨[], []⟩).links :=
    rfl
  have hnodes : (normalizeData rows).nodes = rows.map mkNode := rfl
  refine ⟨?_, ?_, ?_⟩
  · intro l hl
    rw [hlinks] at hl
    exact (hprop l hl).1
  · rw [hlinks]
    have hnd : (((rows.map mkNode).foldl (fun (acc : LinkAcc) (node : Node) =>
        node.connectedProjects.foldl (addLink (rows.map mkNode) node) acc)
        ⟨[], []⟩).links.map linkKey).Nodup := hkeys ▸ hnodup
    have hpw := List.pairwise_map.mp hnd
    exact hpw.imp (fun hne hsp => hne (samePair_linkKey hsp))
  · intro hbar A hA cname hcname B hfind hne
    rw [hnodes] at hA hbar
    rw [hlinks]
    set finalAcc := ((rows.map mkNode).foldl (fun (acc : LinkAcc) (node : Node) =>
      node.connectedProjects.foldl (addLink (rows.map mkNode) node) acc) ⟨[], []⟩) with hfa
    have hkmem : jsSortJoin A.id B.id ∈ finalAcc.keys :=
      outer_fold_key_mem hfind hne hcname (rows.map mkNode) ⟨[], []⟩ hA
    rw [hkeys] at hkmem
    rcases List.mem_map.mp hkmem with ⟨l, hl, hlk⟩
    have hBmem : B ∈ rows.map mkNode := (projectMapFind_mem hfind).1
    have hnbA : noBar A.id := hbar A hA
    have hnbB : noBar B.id := hbar B hBmem
    rcases hprop l hl with ⟨hlne, ⟨n1, hn1, hid1⟩, ⟨n2, hn2, hid2⟩⟩
    have hnbs : noBar l.source := hid1 ▸ hbar n1 hn1
    have hnbt : noBar l.target := hid2 ▸ hbar n2 hn2
    have hsp : samePair l ⟨A.id, B.id⟩ := jsSortJoin_inj hnbs hnbt hnbA hnbB hlk
    have hple : finalAcc.links.countP (fun l => samePairB l A.id B.id) ≤ 1 := by
      refine countP_le_one_of_key (k := jsSortJoin A.id B.id) ?_ (hkeys ▸ hnodup)
      intro x hx hpx
      have hspx : samePair x ⟨A.id, B.id⟩ := of_decide_eq_true hpx
      exact samePair_linkKey hspx
    have hpge : 0 < finalAcc.links.countP (fun l => samePairB l A.id B.id) := by
      rw [List.countP_pos_iff]
      exact ⟨l, hl, decide_eq_true hsp⟩
    omega

/-- C1 (witness): on the two-row dataset where A declares a connection
to B, all ids are separator-free and the declared connection yields
exactly one A—B edge. -/
theorem normalizeData_edge_dedup_witness :
    (∀ n ∈ (normalizeData wRows).nodes, noBar n.id) ∧
    (normalizeData wRows).links.countP (fun l => samePairB l "A" "B") = 1 := by
  refine ⟨by decide, ?_⟩
  have hA : mkNode wRowA ∈ (normalizeData wRows).nodes := by
    show mkNode wRowA ∈ wRows.map mkNode
    simp [wRows]
  have hfind : projectMapFind (normalizeData wRows).nodes "B" = some (mkNode wRowB) := rfl
  exact (normalizeData_edge_dedup wRows).2.2 (by decide) (mkNode wRowA) hA "B" (by decide)
    (mkNode wRowB) hfind (by decide)

/-- C2 (counterexample): on the worked three-node example, `normalizeData`
produces the edge B—C as well as A—B, because B declares a connection to C
and an edge is created from either side; so the edge set is not exactly
the single pair A—B claimed by the spec example. -/
theorem C2_example_counterexample :
    (normalizeData exRows).links = [⟨"A", "B"⟩, ⟨"B", "C"⟩] ∧
    ∃ l ∈ (normalizeData exRows).links, samePair l ⟨"B", "C"⟩ ∧ ¬ samePair l ⟨"A", "B"⟩ := by
  exact ⟨by decide, by decide⟩

/-- C2 (amended): on the worked three-node example the edge set is
exactly A—B and B—C, and filtering with only the field "paint" selected
dims node C and only node C. -/
theorem C2_example_amended :
    (normalizeData exRows).links = [⟨"A", "B"⟩, ⟨"B", "C"⟩] ∧
    (normalizeData exRows).nodes.map Node.id = ["A", "B", "C"] ∧
    (normalizeData exRows).nodes.map (fun d => filterOpacity exFilter d) = [1, 1, 0.15] := by
  refine ⟨by decide, by decide, ?_⟩
  have hnodes : (normalizeData exRows).nodes = [mkNode exRowA, mkNode exRowB, mkNode exRowC] := by
    show exRows.map mkNode = _
    simp [exRows]
  rw [hnodes]
  simp only [List.map_cons, List.map_nil]
  have hA : filterOpacity exFilter (mkNode exRowA) = 1 := by
    unfold filterOpacity
    rw [if_neg (by decide), if_neg (by decide), if_neg (by decide)]
  have hB : filterOpacity exFilter (mkNode exRowB) = 1 := by
    unfold filterOpacity
    rw [if_neg (by decide), if_neg (by decide), if_neg (by decide)]
  have hC : filterOpacity exFilter (mkNode exRowC) = 0.15 := by
    unfold filterOpacity
    rw [if_neg (by decide), if_pos (by decide)]
  rw [hA, hB, hC]

/-- The main.js-family `applyFilters` opacity follows the spec's
priority chain: dimmed when the type rule fires, else when the fields
rule fires, else when the search rule fires, fully visible otherwise. -/
theorem filterOpacity_chain (st : FilterState) (d : Node) :
    filterOpacity st d = if specDimmed st d then (0.15 : ℚ) else 1 := by
  unfold filterOpacity specDimmed
  by_cases h1 : 0 < st.selectedTypes.length ∧ d.type ∉ st.selectedTypes
  · rw [if_pos h1, if_pos (Or.inl ⟨List.length_pos.mp h1.1, h1.2⟩)]
  · have hnc1 : st.selectedTypes = [] ∨ d.type ∈ st.selectedTypes := by
      rcases Decidable.em (st.selectedTypes = []) with he | he
      · exact Or.inl he
      · rcases Decidable.em (d.type ∈ st.selectedTypes) with hm | hm
        · exact Or.inr hm
        · exact absurd ⟨List.length_pos.mpr he, hm⟩ h1
    rw [if_neg h1]
    by_cases h2 : 0 < st.selectedFields.length ∧ ¬ ∃ f ∈ d.fields, f ∈ st.selectedFields
    · rw [if_pos h2,
        if_pos (Or.inr (Or.inl ⟨hnc1, List.length_pos.mp h2.1,
          fun f hf hfs => h2.2 ⟨f, hf, hfs⟩⟩))]
    · have hnc2 : st.selectedFields = [] ∨ ∃ f ∈ d.fields, f ∈ st.selectedFields := by
        rcases Decidable.em (st.selectedFields = []) with he | he
        · exact Or.inl he
        · rcases Decidable.em (∃ f ∈ d.fields, f ∈ st.selectedFields) with hm | hm
          · exact Or.inr hm
          · exact absurd ⟨List.length_pos.mpr he, hm⟩ h2
      rw [if_neg h2]
      by_cases h3 : st.searchQuery ≠ "" ∧
          ¬ jsIncludes (jsToLower d.name) (jsToLower st.searchQuery) = true
      · rw [if_pos h3,
          if_pos (Or.inr (Or.inr ⟨hnc1, hnc2, h3.1, Bool.eq_false_iff.mpr h3.2⟩))]
      · rw [if_neg h3]
        exact (if_neg (fun hsp => by
          rcases hsp with ⟨hne, hnm⟩ | ⟨hd1, hne, hall⟩ | ⟨hd1, hd2, hq, hinc⟩
          · exact h1 ⟨List.length_pos.mpr hne, hnm⟩
          · exact h2 ⟨List.length_pos.mpr hne, fun hex => by
              rcases hex with ⟨f, hf, hfs⟩
              exact hall f hf hfs⟩
          · exact h3 ⟨hq, fun ht => by rw [hinc] at ht; cases ht⟩)).symm

/-- The part_000 `applyFilters` opacity follows the chain with a
terminal fields branch: type rule, else the fields rule whenever a
fields filter is active, else the search rule only when no fields
filter is active. -/
theorem filterOpacityP0_chain (st : FilterState) (d : Node) :
    filterOpacityP0 st d = if specDimmedP0 st d then (0.15 : ℚ) else 1 := by
  unfold filterOpacityP0 specDimmedP0
  by_cases h1 : 0 < st.selectedTypes.length ∧ d.type ∉ st.selectedTypes
  · rw [if_pos h1, if_pos (Or.inl ⟨List.length_pos.mp h1.1, h1.2⟩)]
  · have hnc1 : st.selectedTypes = [] ∨ d.type ∈ st.selectedTypes := by
      rcases Decidable.em (st.selectedTypes = []) with he | he
      · exact Or.inl he
      · rcases Decidable.em (d.type ∈ st.selectedTypes) with hm | hm
        · exact Or.inr hm
        · exact absurd ⟨List.length_pos.mpr he, hm⟩ h1
    rw [if_neg h1]
    by_cases h2 : 0 < st.selectedFields.length
    · rw [if_pos h2]
      by_cases h3 : ¬ ∃ f ∈ d.fields, f ∈ st.selectedFields
      · rw [if_pos h3,
          if_pos (Or.inr (Or.inl ⟨hnc1, List.length_pos.mp h2,
            fun f hf hfs => h3 ⟨f, hf, hfs⟩⟩))]
      · rw [if_neg h3]
        exact (if_neg (fun hsp => by
          rcases hsp with ⟨hne, hnm⟩ | ⟨hd1, hne, hall⟩ | ⟨hd1, hfe, hq, hinc⟩
          · exact h1 ⟨List.length_pos.mpr hne, hnm⟩
          · rcases not_not.mp h3 with ⟨f, hf, hfs⟩
            exact hall f hf hfs
          · rw [hfe] at h2
            simp at h2)).symm
    · rw [if_neg h2]
      have hfe : st.selectedFields = [] := List.length_eq_zero.mp (by omega)
      by_cases h3 : st.searchQuery ≠ "" ∧
          ¬ jsIncludes (jsToLower d.name) (jsToLower st.searchQuery) = true
      · rw [if_pos h3,
          if_pos (Or.inr (Or.inr ⟨hnc1, hfe, h3.1, Bool.eq_false_iff.mpr h3.2⟩))]
      · rw [if_neg h3]
        exact (if_neg (fun hsp => by
          rcases hsp with ⟨hne, hnm⟩ | ⟨hd1, hne, hall⟩ | ⟨hd1, hfe2, hq, hinc⟩
          · exact h1 ⟨List.length_pos.mpr hne, hnm⟩
          · exact h2 (List.length_pos.mpr hne)
          · exact h3 ⟨hq, fun ht => by rw [hinc] at ht; cases ht⟩)).symm

/-- C3 (counterexample): with no type filter, the field "x" selected
and matched by the node, and the search query "zzz" absent from the
node's name, the claimed priority chain says dimmed (its search rule
fires) but the part_000 `applyFilters` leaves the node fully visible:
its else-if chain never consults the search rule once a fields filter
is active. -/
theorem C3_chain_counterexample :
    specDimmed c3Filter c3Node ∧ filterOpacityP0 c3Filter c3Node = 1 := by
  refine ⟨by decide, ?_⟩
  unfold filterOpacityP0
  rw [if_neg (by decide), if_pos (by decide), if_neg (by decide)]

/-- C3 (amended): the `applyFilters` of main.js (and part_001/part_002)
follows the claimed priority chain for every node and filter state;
the part_000 revision follows the chain with a terminal fields branch:
when `selectedFields` is non-empty the search rule is never consulted
(the node is dimmed iff no field matches), and the search rule applies
only when `selectedFields` is empty. -/
theorem applyFilters_priority_chain_by_revision :
    (∀ (st : FilterState) (d : Node),
      filterOpacity st d = if specDimmed st d then (0.15 : ℚ) else 1) ∧
    (∀ (st : FilterState) (d : Node),
      filterOpacityP0 st d = if specDimmedP0 st d then (0.15 : ℚ) else 1) :=
  ⟨filterOpacity_chain, filterOpacityP0_chain⟩

/-- An off-domain label is not assigned a position by the point scale. -/
theorem scaleLookup_not_mem {lo step pad : ℚ} {x : String} :
    ∀ (dom : List String) (i : ℚ), x ∉ dom → scaleLookup lo step pad dom i x = none := by
  intro dom
  induction dom with
  | nil => intro i h; rfl
  | cons dh dt ih =>
    intro i h
    unfold scaleLookup
    rw [if_neg (fun he => h (by rw [he]; exact List.mem_cons_self x dt))]
    exact ih (i + 1) (fun hm => h (List.mem_cons_of_mem dh hm))

/-- C4 (code evaluated at the failing input): for width 1000 a node with
no schedule gets the horizontal target 425, which is `range()[1] / 2`,
while the midpoint of the scale's range is 500; the code comment and the
spec both say the default should be the middle. -/
theorem getNodeXPosition_default_not_midpoint :
    getNodeXPosition emptyScheduleNode (createScheduleScale 1000) = 425 ∧
    ((createScheduleScale 1000).rangeLo + (createScheduleScale 1000).rangeHi) / 2 = 500 ∧
    (425 : ℚ) ≠ 500 := by
  refine ⟨?_, by norm_num [createScheduleScale], by norm_num⟩
  have h : getNodeXPosition emptyScheduleNode (createScheduleScale 1000) =
      (createScheduleScale 1000).rangeHi / 2 := by
    unfold getNodeXPosition
    rw [if_pos (by decide : emptyScheduleNode.schedule.length = 0)]
  rw [h]
  norm_num [createScheduleScale]

/-- C10: a node whose first schedule entry is not one of the four season
labels receives the same default horizontal target as a node with no
schedule at all (the point-scale lookup fails and the fallback is used). -/
theorem getNodeXPosition_offSeason_default (w : ℚ) (node : Node)
    (h1 : node.schedule ≠ []) (h2 : node.schedule.headD "" ∉ SCHEDULE_ORDER) :
    getNodeXPosition node (createScheduleScale w) =
      getNodeXPosition { node with schedule := [] } (createScheduleScale w) := by
  unfold getNodeXPosition
  rw [if_neg (fun h => h1 (List.length_eq_zero.mp h))]
  have hnone : scaleApply (createScheduleScale w) (node.schedule.headD "") = none := by
    unfold scaleApply createScheduleScale
    exact scaleLookup_not_mem SCHEDULE_ORDER 0 h2
  dsimp only
  rw [hnone]
  rfl

/-- C10 (witness): a node scheduled for "Autumn" lands at the same
default x-target as an unscheduled node, for width 1000. -/
theorem getNodeXPosition_offSeason_default_witness :
    autumnNode.schedule ≠ [] ∧ autumnNode.schedule.headD "" ∉ SCHEDULE_ORDER ∧
    getNodeXPosition autumnNode (createScheduleScale 1000) =
      getNodeXPosition { autumnNode with schedule := [] } (createScheduleScale 1000) :=
  ⟨by decide, by decide,
    getNodeXPosition_offSeason_default 1000 autumnNode (by decide) (by decide)⟩

/-- C5: while a click is active for node m, hovering any node with a
different id leaves the whole interaction state unchanged: no popup, no
opacity or highlight updates. -/
theorem handleNodeHover_click_guard (ns : List Node) (ls : List Link) (d : Node)
    (st : InteractState) (m : String) (hc : st.clickedNode = some m) (hne : m ≠ d.id) :
    handleNodeHover ns ls d st = st := by
  unfold handleNodeHover
  rw [hc]
  dsimp only
  rw [if_pos hne]

/-- C5 (witness): with a click active for node A, hovering node B leaves
the concrete interaction state untouched. -/
theorem handleNodeHover_click_guard_witness :
    clickedAState.clickedNode = some "A" ∧ "A" ≠ (plainNode "B" "").id ∧
    handleNodeHover [] [] (plainNode "B" "") clickedAState = clickedAState :=
  ⟨rfl, by decide,
    handleNodeHover_click_guard [] [] (plainNode "B" "") clickedAState "A" rfl (by decide)⟩

/-- C9: a row whose scale cell does not parse as a float yields a node
of scale exactly 1. -/
theorem mkNode_scale_default (row : Row) (h : jsParseFloat row.scale = JsNum.nan) :
    (mkNode row).scale = JsNum.num 1 := by
  show jsNumOr1 (jsParseFloat row.scale) = JsNum.num 1
  rw [h]
  rfl

/-- C9 (witness): the scale cell "abc" does not parse and the resulting
node has scale 1. -/
theorem mkNode_scale_default_witness :
    jsParseFloat badScaleRow.scale = JsNum.nan ∧ (mkNode badScaleRow).scale = JsNum.num 1 :=
  ⟨by decide, mkNode_scale_default badScaleRow (by decide)⟩

/-- C8: when the dataset fetch rejects, `loadData` logs and returns the
empty node/edge set instead of propagating the exception, and `init`
then short-circuits with a logged message. -/
theorem loadData_error_empty (e : String) :
    loadData (Except.error e) = (⟨[], []⟩, ["Error loading CSV: " ++ e]) ∧
    init (Except.error e) =
      (InitOutcome.aborted, ["Error loading CSV: " ++ e, "No data loaded"]) := by
  exact ⟨rfl, rfl⟩

/-- A string that includes a non-empty pattern is itself non-empty. -/
theorem jsIncludes_ne_empty {s pat : String} (h : jsIncludes s pat = true)
    (hpat : pat.data ≠ []) : s ≠ "" := by
  intro hs
  subst hs
  unfold jsIncludes at h
  cases hd : pat.data with
  | nil => exact hpat hd
  | cons c cs =>
    rw [hd] at h
    simp [includesCL, List.isEmpty_iff] at h

/-- Every character of an included pattern occurs in the string. -/
theorem mem_of_jsIncludes {s pat : String} (h : jsIncludes s pat = true) {c : Char}
    (hc : c ∈ pat.data) : c ∈ s.data := by
  unfold jsIncludes at h
  rcases includesCL_exists pat.data s.data h with ⟨pre, post, hdec⟩
  rw [hdec]
  exact List.mem_append.mpr (Or.inr (List.mem_append.mpr (Or.inl hc)))

/-- A string with a non-whitespace character does not trim to empty. -/
theorem jsTrim_ne_empty {s : String} {c : Char} (hc : c ∈ s.data)
    (hw : c.isWhitespace = false) : jsTrim s ≠ "" := by
  intro h
  have hdata : trimCL s.data = [] := congrArg String.data h
  exact trimCL_ne_nil hc hw hdata

/-- A string that includes a non-empty separator splits into more than
one part. -/
theorem jsSplit_length_gt {s sep : String} (h : jsIncludes s sep = true)
    (hsep : sep.data ≠ []) : 1 < (jsSplit s sep).length := by
  unfold jsSplit splitCL
  rw [List.length_map]
  exact includesCL_splitFuel_length sep.data s.data.length s.data (Nat.le_refl _) hsep h

/-- The falsy-default of a string against the empty string is itself. -/
theorem jsOrStr_empty (s : String) : jsOrStr s "" = s := by
  unfold jsOrStr
  by_cases h : s = ""
  · rw [if_pos h, h]
  · rw [if_neg h]

/-- C6: a photo link containing both `drive.google.com` and `/d/`
normalizes to the direct thumbnail URL embedding the extracted file
identifier; any other link passes through unchanged; the empty link
stays empty; and the worked example extracts XYZ123. -/
theorem normalizePhotoLink_spec :
    (∀ s : String, jsIncludes s "drive.google.com" = true → jsIncludes s "/d/" = true →
      normalizePhotoLink s =
        "https://drive.google.com/thumbnail?id=" ++ photoFileId s ++ "&sz=w1000") ∧
    (∀ s : String, ¬ (jsIncludes s "drive.google.com" = true ∧ jsIncludes s "/d/" = true) →
      normalizePhotoLink s = s) ∧
    normalizePhotoLink "" = "" ∧
    photoFileId exPhotoUrl = "XYZ123" ∧
    normalizePhotoLink exPhotoUrl = "https://drive.google.com/thumbnail?id=XYZ123&sz=w1000" := by
  refine ⟨?_, ?_, by decide, by decide, by decide⟩
  · intro s h1 h2
    have hne : s ≠ "" := jsIncludes_ne_empty h1 (by decide)
    have hd : ('d' : Char) ∈ s.data := mem_of_jsIncludes h1 (by decide)
    have htrim : jsTrim s ≠ "" := jsTrim_ne_empty hd (by decide)
    have hlen : 1 < (jsSplit s "/d/").length := jsSplit_length_gt h2 (by decide)
    unfold normalizePhotoLink
    rw [jsOrStr_empty]
    rw [if_pos ⟨hne, htrim⟩, if_pos ⟨h1, h2⟩, if_pos hlen]
  · intro s hn
    unfold normalizePhotoLink
    rw [jsOrStr_empty]
    by_cases hg : s ≠ "" ∧ jsTrim s ≠ ""
    · rw [if_pos hg, if_neg hn]
    · rw [if_neg hg]

/-- C6 (witness): the worked share link satisfies both containment
conditions and normalizes to the thumbnail URL embedding its file id. -/
theorem normalizePhotoLink_spec_witness :
    jsIncludes exPhotoUrl "drive.google.com" = true ∧ jsIncludes exPhotoUrl "/d/" = true ∧
    normalizePhotoLink exPhotoUrl =
      "https://drive.google.com/thumbnail?id=" ++ photoFileId exPhotoUrl ++ "&sz=w1000" :=
  ⟨by decide, by decide, normalizePhotoLink_spec.1 exPhotoUrl (by decide) (by decide)⟩

/-- C7: toggling a field filter that is not selected on and then off
restores `selectedFields` exactly, and with it every node's computed
visibility under any surrounding filter state. -/
theorem toggleFieldFilter_involutive (sf : List String) (f : String) (h : f ∉ sf) :
    toggleFieldFilter f (toggleFieldFilter f sf) = sf ∧
    ∀ (ty : List String) (q : String) (d : Node),
      filterOpacity ⟨ty, toggleFieldFilter f (toggleFieldFilter f sf), q⟩ d =
        filterOpacity ⟨ty, sf, q⟩ d := by
  have h1 : toggleFieldFilter f sf = sf ++ [f] := by
    unfold toggleFieldFilter setFieldFilterState jsSetAdd
    rw [decide_eq_true h, if_pos rfl, if_neg h]
  have h2 : toggleFieldFilter f (sf ++ [f]) = sf := by
    unfold toggleFieldFilter setFieldFilterState jsSetDelete
    have hmem : f ∈ sf ++ [f] := List.mem_append.mpr (Or.inr (List.mem_singleton.mpr rfl))
    rw [decide_eq_false (not_not_intro hmem), if_neg Bool.false_ne_true]
    rw [List.filter_append]
    have hself : sf.filter (fun y => y != f) = sf :=
      List.filter_eq_self.mpr (fun a ha => bne_iff_ne.mpr (fun he => h (he ▸ ha)))
    rw [hself]
    simp
  rw [h1, h2]
  exact ⟨rfl, fun ty q d => rfl⟩

/-- C7 (witness): toggling "paint" on and then off over the singleton
selection holding "dance" restores it exactly. -/
theorem toggleFieldFilter_involutive_witness :
    "paint" ∉ (["dance"] : List String) ∧
    toggleFieldFilter "paint" (toggleFieldFilter "paint" ["dance"]) = ["dance"] :=
  ⟨by decide, (toggleFieldFilter_involutive ["dance"] "paint" (by decide)).1⟩
